import Mathlib

/-
Verification of the JFlashPatcher core library (src/jflash_patch_core.py).

The embedding models:
  - XML elements as a mutually inductive tree (tag, attributes as an ordered
    association list mirroring the insertion order of a Python dict, children);
  - get_device_name as the structurally recursive name resolution of the
    source (own attributes first, then the device/chipinfo recursion);
  - merge_xml as a pure state transformer over an abstract file system state
    (target file content, backup file content), where a file content is
    either raw bytes (unparsable) or a parsed document;
  - copy_devices as a pure transformer over an association list of installed
    folders, where a folder tree maps relative paths to file contents;
  - process_patch as the composition merge_xml followed by copy_devices,
    in the order of the source.

The Python method str.lower() is modelled by mapping Char.toLower over the
characters; the tags and keys involved are ASCII, where the two agree.
-/

mutual
inductive Element where
  | mk (tag : String) (attrib : List (String × String)) (children : ElementList)
inductive ElementList where
  | nil
  | cons (head : Element) (tail : ElementList)
end

def Element.tag : Element → String
  | .mk t _ _ => t

def Element.attrib : Element → List (String × String)
  | .mk _ a _ => a

def Element.childList : Element → ElementList
  | .mk _ _ c => c

def ElementList.toList : ElementList → List Element
  | .nil => []
  | .cons h t => h :: t.toList

def ElementList.ofList : List Element → ElementList
  | [] => .nil
  | h :: t => .cons h (ElementList.ofList t)

/-- Model of Python str.lower() for the ASCII tags and keys involved. -/
def lowerStr (s : String) : String := ⟨s.data.map Char.toLower⟩

/-- Model of dict.get(k) followed by a Python truthiness test: returns the
value bound to the exact key k only when that value is non-empty, mirroring
the pattern elem.get(k) of the code guarded by an if on the value. -/
def truthyGet (attrib : List (String × String)) (k : String) : Option String :=
  match (attrib.find? (fun p => p.1 == k)).map (fun p => p.2) with
  | some v => if v = "" then none else some v
  | none => none

/-- Case-insensitive scan over all attributes in document order, the loop at
lines 60-62 of the source: return the first value whose key lowercases to
name, even when that value is empty. -/
def ciAttrName (attrib : List (String × String)) : Option String :=
  (attrib.find? (fun p => lowerStr p.1 == "name")).map (fun p => p.2)

/-- Own-attribute stage of get_device_name (lines 53-62): exact key Name,
then exact key name (each skipped when the value is falsy), then the full
case-insensitive scan. -/
def ownAttrName (attrib : List (String × String)) : Option String :=
  match truthyGet attrib "Name" with
  | some v => some v
  | none =>
    match truthyGet attrib "name" with
    | some v => some v
    | none => ciAttrName attrib

mutual
/-- Embedding of get_device_name (lines 51-79): own attributes first; for a
device-tagged element, scan children for chipinfo (attributes, then recurse
into that chipinfo), then recurse into every child in order. A result of
some v models the Python return (v, True); none models (None, False). -/
def get_device_name (e : Element) : Option String :=
  match e with
  | .mk tag attrib children =>
    match ownAttrName attrib with
    | some v => some v
    | none =>
      if lowerStr tag == "device" then
        match chipinfoScan children with
        | some v => some v
        | none => childScan children
      else none

/-- Embedding of the first loop of get_device_name (lines 66-73): for each
chipinfo-tagged child, its attributes first, then a recursive resolution on
that child; on failure continue with the remaining children. -/
def chipinfoScan : ElementList → Option String
  | .nil => none
  | .cons c rest =>
    if lowerStr c.tag == "chipinfo" then
      match ciAttrName c.attrib with
      | some v => some v
      | none =>
        match get_device_name c with
        | some v => some v
        | none => chipinfoScan rest
    else chipinfoScan rest

/-- Embedding of the second loop of get_device_name (lines 74-77): recursive
resolution on every child in order, first success wins. -/
def childScan : ElementList → Option String
  | .nil => none
  | .cons c rest =>
    match get_device_name c with
    | some v => some v
    | none => childScan rest
end

/-- Synthetic placeholder key for an element without a resolvable name
(line 126 of the source). -/
def placeholderKey (tag : String) (idx : Nat) : String :=
  "__unnamed_" ++ tag ++ "_" ++ toString idx ++ "__"

/-- Names collected from the direct children of the target root (lines 118-127):
the resolved name when one exists, else the synthetic placeholder built from
the tag and the positional index. -/
def initNamesAux : Nat → List Element → List String
  | _, [] => []
  | i, c :: rest =>
    (match get_device_name c with
     | some n => n
     | none => placeholderKey c.tag i) :: initNamesAux (i + 1) rest

def initNames (cs : List Element) : List String := initNamesAux 0 cs

/-- Resolved names of a list of elements (placeholders excluded). -/
def resolvedNames (cs : List Element) : List String := cs.filterMap get_device_name

/-- Removal loop of the update branch (lines 150-154): drop the first child
whose resolved name equals the given name, keep everything else. -/
def removeFirstByName (n : String) : List Element → List Element
  | [] => []
  | c :: rest =>
    if get_device_name c = some n then rest else c :: removeFirstByName n rest

structure MergeAcc where
  children : List Element
  names : List String
  added : Nat
  replaced : Nat
  skipped : Nat

/-- One iteration of the merge loop (lines 133-157) over a single source
child: anonymous children are appended and counted as added and skipped;
a resolved name absent from the name set is appended and recorded; a name
already in the set removes the first target child with that resolved name
and appends the source child, counted as replaced. -/
def mergeStep (acc : MergeAcc) (e : Element) : MergeAcc :=
  match get_device_name e with
  | none =>
    { acc with children := acc.children ++ [e],
               added := acc.added + 1, skipped := acc.skipped + 1 }
  | some n =>
    if n ∈ acc.names then
      { acc with children := removeFirstByName n acc.children ++ [e],
                 replaced := acc.replaced + 1 }
    else
      { acc with children := acc.children ++ [e], names := n :: acc.names,
                 added := acc.added + 1 }

/-- Merge of the direct children of the source root into the children of
the target root (lines 118-157). -/
def mergeChildren (cs : List Element) (ss : List Element) : MergeAcc :=
  ss.foldl mergeStep
    { children := cs, names := initNames cs, added := 0, replaced := 0, skipped := 0 }

/-- Content of a file: raw bytes that do not parse as XML, or a well-formed
document identified with its root element. -/
inductive Content where
  | raw (s : String)
  | doc (e : Element)

/-- Model of ET.parse: succeeds exactly on well-formed documents. -/
def parseContent : Content → Option Element
  | .raw _ => none
  | .doc e => some e

structure XmlFsState where
  target : Option Content
  bak : Option Content

structure MergeResult where
  target : Option Content
  bak : Option Content
  report : Option (Nat × Nat)

/-- Embedding of merge_xml (lines 85-160) as a transformer of the target and
backup file contents. The report field carries the final added and replaced
counts exactly when the concluding log line of the source is reached; every
early return leaves it none. -/
def merge_xml (st : XmlFsState) (src : Option Content) (backup : Bool) : MergeResult :=
  match src with
  | none => ⟨st.target, st.bak, none⟩
  | some srcC =>
    let bak1 : Option Content :=
      if backup then
        match st.target, st.bak with
        | some t, none => some t
        | _, _ => st.bak
      else st.bak
    match st.target with
    | none => ⟨some srcC, bak1, none⟩
    | some tgtC =>
      match parseContent tgtC, parseContent srcC with
      | some (.mk tag attrib cs), some srcRoot =>
        let acc := mergeChildren cs.toList srcRoot.childList.toList
        ⟨some (.doc (.mk tag attrib (ElementList.ofList acc.children))), bak1,
         some (acc.added, acc.replaced)⟩
      | _, _ => ⟨st.target, bak1, none⟩

/-- Number of direct children of the root of a well-formed target file. -/
def targetChildCount : Option Content → Option Nat
  | some (.doc e) => some e.childList.toList.length
  | _ => none

/-- Folder tree: finite map from relative paths to file contents, with
first-match lookup. -/
abbrev FileTree := List (List String × String)

def lookupT : FileTree → List String → Option String
  | [], _ => none
  | (q, c) :: rest, p => if q = p then some c else lookupT rest p

/-- Overlay of a source tree onto an existing destination tree, the
semantics of shutil.copytree with dirs_exist_ok (and of the os.walk
fallback, lines 209-219): a path maps to the source file when the source
tree has one, else to the file of the destination. -/
def copytree_overlay (src dst : FileTree) : FileTree := src ++ dst

def lookupFolder : List (String × FileTree) → String → Option FileTree
  | [], _ => none
  | (n, t) :: rest, k => if n = k then some t else lookupFolder rest k

def setFolder (k : String) (t : FileTree) : List (String × FileTree) → List (String × FileTree)
  | [] => [(k, t)]
  | (n, u) :: rest => if n = k then (k, t) :: rest else (n, u) :: setFolder k t rest

/-- Embedding of copy_devices (lines 185-220): the selector outcome is the
pair of the basename of the chosen folder and its tree, or none for not-found; a
not-found outcome leaves the installation tree untouched; otherwise the
destination folder is created as a copy of the source tree when absent, or
overlaid with it when present. -/
def copy_devices (sel : Option (String × FileTree)) (jflash : List (String × FileTree)) :
    List (String × FileTree) :=
  match sel with
  | none => jflash
  | some (fname, stree) =>
    match lookupFolder jflash fname with
    | none => setFolder fname stree jflash
    | some dtree => setFolder fname (copytree_overlay stree dtree) jflash

structure PatchState where
  targetXml : Option Content
  bakXml : Option Content
  folders : List (String × FileTree)

/-- Embedding of process_patch (lines 226-234): merge_xml on the XML state
first, then copy_devices on the folder state, unconditionally in that
order. -/
def process_patch (st : PatchState) (srcXml : Option Content)
    (sel : Option (String × FileTree)) (backup : Bool) : PatchState :=
  let m := merge_xml ⟨st.targetXml, st.bakXml⟩ srcXml backup
  ⟨m.target, m.bak, copy_devices sel st.folders⟩

/-- Test used in counting lemmas: the element resolves to a name that is a
member of the given name list. -/
def hasNameIn (names : List String) (e : Element) : Bool :=
  match get_device_name e with
  | some n => decide (n ∈ names)
  | none => false

/-- First chipinfo-tagged direct child, matching the scan order of the first
loop of get_device_name. -/
def firstChipinfo : ElementList → Option Element
  | .nil => none
  | .cons c rest => if lowerStr c.tag == "chipinfo" then some c else firstChipinfo rest

theorem toList_ofList (l : List Element) : (ElementList.ofList l).toList = l := by
  induction l with
  | nil => rfl
  | cons h t ih => simp [ElementList.ofList, ElementList.toList, ih]

theorem removeFirstByName_eq_of_no_match {n : String} {cs : List Element}
    (h : ∀ c ∈ cs, get_device_name c ≠ some n) : removeFirstByName n cs = cs := by
  induction cs with
  | nil => rfl
  | cons c rest ih =>
    simp only [removeFirstByName]
    rw [if_neg (h c (List.mem_cons_self c rest)),
        ih (fun d hd => h d (List.mem_cons_of_mem _ hd))]

theorem length_removeFirstByName {n : String} {cs : List Element}
    (h : ∃ c ∈ cs, get_device_name c = some n) :
    (removeFirstByName n cs).length + 1 = cs.length := by
  induction cs with
  | nil => simp at h
  | cons c rest ih =>
    by_cases hc : get_device_name c = some n
    · simp [removeFirstByName, hc]
    · obtain ⟨d, hd, hdn⟩ := h
      rcases List.mem_cons.mp hd with rfl | hd2
      · exact absurd hdn hc
      · simp only [removeFirstByName, if_neg hc, List.length_cons]
        rw [← ih ⟨d, hd2, hdn⟩]

theorem mem_removeFirstByName {n : String} {c : Element} {cs : List Element}
    (hc : c ∈ cs) (hne : get_device_name c ≠ some n) : c ∈ removeFirstByName n cs := by
  induction cs with
  | nil => simp at hc
  | cons d rest ih =>
    by_cases hd : get_device_name d = some n
    · simp only [removeFirstByName, if_pos hd]
      rcases List.mem_cons.mp hc with rfl | h2
      · exact absurd hd hne
      · exact h2
    · simp only [removeFirstByName, if_neg hd]
      rcases List.mem_cons.mp hc with rfl | h2
      · exact List.mem_cons_self _ _
      · exact List.mem_cons_of_mem _ (ih h2)

theorem mem_initNamesAux {n : String} {c : Element} {cs : List Element}
    (hc : c ∈ cs) (hn : get_device_name c = some n) : ∀ i, n ∈ initNamesAux i cs := by
  induction cs with
  | nil => simp at hc
  | cons d rest ih =>
    intro i
    rcases List.mem_cons.mp hc with rfl | h2
    · simp [initNamesAux, hn]
    · exact List.mem_cons_of_mem _ (ih h2 (i + 1))

theorem mem_initNames {n : String} {c : Element} {cs : List Element}
    (hc : c ∈ cs) (hn : get_device_name c = some n) : n ∈ initNames cs :=
  mem_initNamesAux hc hn 0

theorem countP_bool_split {α : Type} (p : α → Bool) (l : List α) :
    l.countP p + l.countP (fun a => !(p a)) = l.length := by
  induction l with
  | nil => simp
  | cons a t ih => simp only [List.countP_cons]; cases h : p a <;> simp [h] <;> omega

theorem lookupT_append_of_none {xs ys : FileTree} {p : List String}
    (h : lookupT xs p = none) : lookupT (xs ++ ys) p = lookupT ys p := by
  induction xs with
  | nil => rfl
  | cons q rest ih =>
    obtain ⟨k, c⟩ := q
    simp only [lookupT, List.cons_append] at h ⊢
    by_cases hk : k = p
    · simp [hk] at h
    · rw [if_neg hk] at h ⊢
      exact ih h

theorem lookupT_append_of_some {xs ys : FileTree} {p : List String} {c : String}
    (h : lookupT xs p = some c) : lookupT (xs ++ ys) p = some c := by
  induction xs with
  | nil => simp [lookupT] at h
  | cons q rest ih =>
    obtain ⟨k, v⟩ := q
    simp only [lookupT, List.cons_append] at h ⊢
    by_cases hk : k = p
    · rw [if_pos hk] at h ⊢
      exact h
    · rw [if_neg hk] at h ⊢
      exact ih h

theorem lookupFolder_setFolder_self (k : String) (t : FileTree)
    (fs : List (String × FileTree)) : lookupFolder (setFolder k t fs) k = some t := by
  induction fs with
  | nil => simp [setFolder, lookupFolder]
  | cons q rest ih =>
    obtain ⟨n, u⟩ := q
    by_cases hn : n = k
    · simp [setFolder, hn, lookupFolder]
    · simp only [setFolder, if_neg hn, lookupFolder]
      exact ih

theorem merge_xml_bak (st : XmlFsState) (src : Option Content) (backup : Bool) :
    (merge_xml st src backup).bak =
      match src with
      | none => st.bak
      | some _ =>
        if backup then
          match st.target, st.bak with
          | some t, none => some t
          | _, _ => st.bak
        else st.bak := by
  cases src with
  | none => rfl
  | some srcC =>
    obtain ⟨tgt, bak⟩ := st
    cases tgt with
    | none => rfl
    | some tgtC =>
      cases tgtC with
      | raw s => cases srcC <;> rfl
      | doc e =>
        cases e
        cases srcC with
        | raw s2 => rfl
        | doc e2 => rfl

/-- C1 counterexample: a selector outcome of not-found does not stop the
XML merge. At a concrete state whose target document has no children and a
source document with one named device, process_patch invoked with a
not-found selector changes the target XML content, contradicting the claim
that it returns without touching the target XML file. -/
theorem C1_counterexample :
    (process_patch ⟨some (Content.doc (.mk "Root" [] .nil)), none, []⟩
        (some (Content.doc (.mk "Root" []
          (.cons (.mk "Device" [("Name", "A")] .nil) .nil)))) none true).targetXml
      ≠ some (Content.doc (.mk "Root" [] .nil)) := by
  intro h
  exact absurd (congrArg targetChildCount h) (by decide)

/-- C1 (amended): process_patch runs the XML merge unconditionally before
the folder selection; when the selector reports not-found, the folder state
is left untouched, but the target and backup XML files have already been
transformed exactly as merge_xml transforms them. -/
theorem C1_merge_unconditional (st : PatchState) (srcXml : Option Content) (backup : Bool) :
    (process_patch st srcXml none backup).folders = st.folders
    ∧ (process_patch st srcXml none backup).targetXml
        = (merge_xml ⟨st.targetXml, st.bakXml⟩ srcXml backup).target
    ∧ (process_patch st srcXml none backup).bakXml
        = (merge_xml ⟨st.targetXml, st.bakXml⟩ srcXml backup).bak :=
  ⟨rfl, rfl, rfl⟩

/-- C5: when merge_xml reaches the parse step with both files present and
parsing either document fails, the target file content is unchanged: no
incomplete write occurs. -/
theorem C5_parse_failure_leaves_target (st : XmlFsState) (tgtC srcC : Content) (backup : Bool)
    (htgt : st.target = some tgtC)
    (hfail : parseContent tgtC = none ∨ parseContent srcC = none) :
    (merge_xml st (some srcC) backup).target = st.target := by
  cases tgtC with
  | raw s => cases srcC <;> simp [merge_xml, htgt, parseContent]
  | doc e =>
    rcases hfail with h | h
    · simp [parseContent] at h
    · cases srcC with
      | raw s2 =>
        cases e
        simp [merge_xml, htgt, parseContent]
      | doc e2 => simp [parseContent] at h

/-- Witness for C5 at a concrete unparsable target file. -/
theorem C5_witness :
    (merge_xml ⟨some (Content.raw "x"), none⟩
        (some (Content.doc (.mk "Root" [] .nil))) true).target = some (Content.raw "x") :=
  C5_parse_failure_leaves_target ⟨some (Content.raw "x"), none⟩ (Content.raw "x")
    (Content.doc (.mk "Root" [] .nil)) true rfl (Or.inl rfl)

/-- C6: backup discipline of merge_xml: an existing backup file is never
overwritten or altered; if a run changes the backup at all then backup was
requested, no backup existed before, the target file existed, and the new
backup is a byte-identical copy of the pre-merge target; and when the
target file does not exist, no backup is created. -/
theorem C6_backup_created_once (st : XmlFsState) (src : Option Content) (backup : Bool) :
    (∀ b, st.bak = some b → (merge_xml st src backup).bak = some b)
    ∧ ((merge_xml st src backup).bak ≠ st.bak →
        backup = true ∧ st.bak = none
        ∧ ∃ t, st.target = some t ∧ (merge_xml st src backup).bak = some t)
    ∧ (st.target = none → (merge_xml st src backup).bak = st.bak) := by
  obtain ⟨tgt, bak⟩ := st
  rw [merge_xml_bak]
  refine ⟨?_, ?_, ?_⟩
  · intro b hb
    subst hb
    cases src with
    | none => rfl
    | some srcC => cases backup <;> cases tgt <;> rfl
  · intro hne
    cases src with
    | none => exact absurd rfl hne
    | some srcC =>
      cases backup with
      | false => exact absurd rfl hne
      | true =>
        cases tgt with
        | none => exact absurd rfl hne
        | some t =>
          cases bak with
          | none => exact ⟨rfl, rfl, t, rfl, rfl⟩
          | some b => exact absurd rfl hne
  · intro h
    simp only [show tgt = none from h]
    cases src with
    | none => rfl
    | some srcC => cases backup <;> cases bak <;> rfl

/-- Witness for C6: a pre-existing backup survives a merge unchanged, and a
first merge against an existing target creates the backup from it. -/
theorem C6_witness :
    (merge_xml ⟨some (Content.raw "t"), some (Content.raw "b")⟩
        (some (Content.raw "s")) true).bak = some (Content.raw "b")
    ∧ (merge_xml ⟨some (Content.raw "t"), none⟩
        (some (Content.raw "s")) true).bak = some (Content.raw "t") :=
  ⟨(C6_backup_created_once ⟨some (Content.raw "t"), some (Content.raw "b")⟩
      (some (Content.raw "s")) true).1 (Content.raw "b") rfl, rfl⟩

/-- C9: the folder copy of copy_devices onto an existing destination folder
is a union overlay: the destination becomes the overlay of the source tree
on the old destination tree, under which a path absent from the source tree
keeps the destination file (no deletion, no modification), and every path
of the source tree maps to the source file (overwrite). -/
theorem C9_copy_devices_overlay (jflash : List (String × FileTree)) (fname : String)
    (stree dtree : FileTree)
    (hdst : lookupFolder jflash fname = some dtree) :
    lookupFolder (copy_devices (some (fname, stree)) jflash) fname
      = some (copytree_overlay stree dtree)
    ∧ (∀ p, lookupT stree p = none →
        lookupT (copytree_overlay stree dtree) p = lookupT dtree p)
    ∧ (∀ p c, lookupT stree p = some c →
        lookupT (copytree_overlay stree dtree) p = some c) := by
  refine ⟨?_, ?_, ?_⟩
  · simp [copy_devices, hdst, lookupFolder_setFolder_self]
  · intro p h
    exact lookupT_append_of_none h
  · intro p c h
    exact lookupT_append_of_some h

/-- Witness for C9: overlaying a one-file source folder onto a two-file
destination keeps the destination-only file and overwrites the shared
path. -/
theorem C9_witness :
    lookupFolder (copy_devices (some ("STM32", [(["a"], "new")]))
        [("STM32", [(["a"], "old"), (["b"], "keep")])]) "STM32"
      = some (copytree_overlay [(["a"], "new")] [(["a"], "old"), (["b"], "keep")])
    ∧ lookupT (copytree_overlay [(["a"], "new")] [(["a"], "old"), (["b"], "keep")]) ["b"]
        = some "keep"
    ∧ lookupT (copytree_overlay [(["a"], "new")] [(["a"], "old"), (["b"], "keep")]) ["a"]
        = some "new" := by
  obtain ⟨h1, h2, h3⟩ := C9_copy_devices_overlay
    [("STM32", [(["a"], "old"), (["b"], "keep")])] "STM32"
    [(["a"], "new")] [(["a"], "old"), (["b"], "keep")] rfl
  exact ⟨h1, (h2 ["b"] rfl).trans rfl, h3 ["a"] "new" rfl⟩

/-- C10: for an element whose tag is not device (case-insensitively) and
that carries no attribute keyed name (case-insensitively), get_device_name
returns none regardless of the children of the element: the recursion into
children happens only for device-tagged elements, so a name carried below
such a wrapper is never found. -/
theorem C10_non_device_no_recursion (tag : String) (attrib : List (String × String))
    (children : ElementList)
    (htag : lowerStr tag ≠ "device")
    (hattr : ∀ p ∈ attrib, lowerStr p.1 ≠ "name") :
    get_device_name (.mk tag attrib children) = none := by
  have hName : attrib.find? (fun p => p.1 == "Name") = none := by
    rw [List.find?_eq_none]
    intro p hp hbeq
    have h1 : p.1 = "Name" := beq_iff_eq.mp hbeq
    exact hattr p hp (h1 ▸ (by decide : lowerStr "Name" = "name"))
  have hname : attrib.find? (fun p => p.1 == "name") = none := by
    rw [List.find?_eq_none]
    intro p hp hbeq
    have h1 : p.1 = "name" := beq_iff_eq.mp hbeq
    exact hattr p hp (h1 ▸ (by decide : lowerStr "name" = "name"))
  have hci : attrib.find? (fun p => lowerStr p.1 == "name") = none := by
    rw [List.find?_eq_none]
    intro p hp hbeq
    exact hattr p hp (beq_iff_eq.mp hbeq)
  have htagb : (lowerStr tag == "device") = false := by
    rw [beq_eq_false_iff_ne]
    exact htag
  simp [get_device_name, ownAttrName, truthyGet, ciAttrName, hName, hname, hci, htagb]

/-- Witness for C10: a non-device wrapper whose child carries a Name is
still unresolvable. -/
theorem C10_witness :
    get_device_name (.mk "group" [("id", "7")]
        (.cons (.mk "Device" [("Name", "A")] .nil) .nil)) = none :=
  C10_non_device_no_recursion "group" [("id", "7")] _ (by decide) (by decide)

theorem ownAttrName_none_of_no_ci (attrib : List (String × String))
    (hattr : ∀ p ∈ attrib, lowerStr p.1 ≠ "name") : ownAttrName attrib = none := by
  have hName : attrib.find? (fun p => p.1 == "Name") = none := by
    rw [List.find?_eq_none]
    intro p hp hbeq
    exact hattr p hp ((beq_iff_eq.mp hbeq) ▸ (by decide : lowerStr "Name" = "name"))
  have hname : attrib.find? (fun p => p.1 == "name") = none := by
    rw [List.find?_eq_none]
    intro p hp hbeq
    exact hattr p hp ((beq_iff_eq.mp hbeq) ▸ (by decide : lowerStr "name" = "name"))
  have hci : attrib.find? (fun p => lowerStr p.1 == "name") = none := by
    rw [List.find?_eq_none]
    intro p hp hbeq
    exact hattr p hp (beq_iff_eq.mp hbeq)
  simp [ownAttrName, truthyGet, ciAttrName, hName, hname, hci]

theorem chipinfoScan_first : ∀ (children : ElementList) (c : Element) (v : String),
    firstChipinfo children = some c → ciAttrName c.attrib = some v →
    chipinfoScan children = some v
  | .nil, c, v, hfirst, _ => by simp [firstChipinfo] at hfirst
  | .cons d rest, c, v, hfirst, hattr => by
    by_cases hd : (lowerStr d.tag == "chipinfo") = true
    · rw [firstChipinfo, if_pos hd] at hfirst
      obtain rfl := Option.some.inj hfirst
      simp only [chipinfoScan]
      rw [if_pos hd, hattr]
    · rw [firstChipinfo, if_neg hd] at hfirst
      simp only [chipinfoScan, if_neg hd]
      exact chipinfoScan_first rest c v hfirst hattr

/-- C2 counterexample: a source device whose resolved name is exactly the
synthetic placeholder of an anonymous target child is matched against the
name set: the merge reports it as an update (replaced = 1, added = 0),
contradicting the claim that it is counted as added and never as an update.
It is still appended, so the child count grows to 2. -/
theorem C2_counterexample :
    (merge_xml ⟨some (Content.doc (.mk "Root" []
          (.cons (.mk "Device" [] .nil) .nil))), none⟩
        (some (Content.doc (.mk "Root" []
          (.cons (.mk "Device" [("Name", "__unnamed_Device_0__")] .nil) .nil))))
        false).report = some (0, 1)
    ∧ targetChildCount (merge_xml ⟨some (Content.doc (.mk "Root" []
          (.cons (.mk "Device" [] .nil) .nil))), none⟩
        (some (Content.doc (.mk "Root" []
          (.cons (.mk "Device" [("Name", "__unnamed_Device_0__")] .nil) .nil))))
        false).target = some 2 := by decide

/-- C2 (amended): a source child whose resolved name is absent from the
resolved names of the target children but present in the seeded name set
(that is, it collides with a synthetic placeholder) is matched against the
placeholder: the merge counts it as an update, not as an addition; since no
target child resolves to that name, nothing is removed and the source child
is still appended at the end. -/
theorem C2_placeholder_collision_is_update (cs : List Element) (e : Element) (n : String)
    (hn : get_device_name e = some n)
    (htarget : ∀ c ∈ cs, get_device_name c ≠ some n)
    (hmem : n ∈ initNames cs) :
    (mergeChildren cs [e]).children = cs ++ [e]
    ∧ (mergeChildren cs [e]).added = 0
    ∧ (mergeChildren cs [e]).replaced = 1 := by
  have hstep : mergeChildren cs [e] = mergeStep ⟨cs, initNames cs, 0, 0, 0⟩ e := rfl
  rw [hstep]
  simp only [mergeStep, hn]
  rw [if_pos hmem]
  exact ⟨by rw [removeFirstByName_eq_of_no_match htarget], rfl, rfl⟩

/-- Witness for the amended C2 at the concrete placeholder collision. -/
theorem C2_witness :
    (mergeChildren [Element.mk "Device" [] .nil]
        [Element.mk "Device" [("Name", "__unnamed_Device_0__")] .nil]).children
      = [Element.mk "Device" [] .nil,
         Element.mk "Device" [("Name", "__unnamed_Device_0__")] .nil]
    ∧ (mergeChildren [Element.mk "Device" [] .nil]
        [Element.mk "Device" [("Name", "__unnamed_Device_0__")] .nil]).added = 0
    ∧ (mergeChildren [Element.mk "Device" [] .nil]
        [Element.mk "Device" [("Name", "__unnamed_Device_0__")] .nil]).replaced = 1 := by
  have h := C2_placeholder_collision_is_update [Element.mk "Device" [] .nil]
      (Element.mk "Device" [("Name", "__unnamed_Device_0__")] .nil) "__unnamed_Device_0__"
      rfl (by decide) (by decide)
  simpa using h

/-- C7 counterexample: a device element carrying its own Name attribute and
a chipinfo child with a different name resolves to its own attribute, not
the name of the chipinfo child, contradicting the claim that the value
of the chipinfo attribute is returned. -/
theorem C7_counterexample :
    get_device_name (.mk "Device" [("Name", "A")]
        (.cons (.mk "ChipInfo" [("Name", "B")] .nil) .nil)) = some "A"
    ∧ get_device_name (.mk "Device" [("Name", "A")]
        (.cons (.mk "ChipInfo" [("Name", "B")] .nil) .nil)) ≠ some "B" := by decide

/-- C7 (amended): for a device-tagged element carrying no name attribute of
its own, whose first chipinfo-tagged direct child carries a name attribute
(case-insensitively), get_device_name returns from that chipinfo child the first
matching attribute value, and hence no name of any deeper descendant. -/
theorem C7_chipinfo_name_priority (tag : String) (attrib : List (String × String))
    (children : ElementList) (c : Element) (v : String)
    (htag : lowerStr tag = "device")
    (hown : ∀ p ∈ attrib, lowerStr p.1 ≠ "name")
    (hfirst : firstChipinfo children = some c)
    (hattr : ciAttrName c.attrib = some v) :
    get_device_name (.mk tag attrib children) = some v := by
  have h1 : ownAttrName attrib = none := ownAttrName_none_of_no_ci attrib hown
  have h2 : chipinfoScan children = some v := chipinfoScan_first children c v hfirst hattr
  have htagb : (lowerStr tag == "device") = true := by
    rw [htag]
    decide
  simp [get_device_name, h1, htagb, h2]

/-- Witness for the amended C7: mixed-case tags and keys, with a non-chip
sibling before the chipinfo child. -/
theorem C7_witness :
    get_device_name (.mk "DEVICE" [("id", "x")]
        (.cons (.mk "other" [] .nil)
          (.cons (.mk "chipINFO" [("nAme", "B")] .nil) .nil))) = some "B" :=
  C7_chipinfo_name_priority "DEVICE" [("id", "x")]
    (.cons (.mk "other" [] .nil) (.cons (.mk "chipINFO" [("nAme", "B")] .nil) .nil))
    (.mk "chipINFO" [("nAme", "B")] .nil) "B" (by decide) (by decide) rfl rfl

/-- C8 counterexample: an element with both an exact lowercase key name and
an exact key Name, in that document order, resolves to the Name value under
the staged lookup of the source but to the name value under a single
case-insensitive scan in document order, so the two are not behaviorally
equivalent. -/
theorem C8_counterexample :
    ownAttrName [("name", "X"), ("Name", "Y")] = some "Y"
    ∧ ciAttrName [("name", "X"), ("Name", "Y")] = some "X"
    ∧ ownAttrName [("name", "X"), ("Name", "Y")]
        ≠ ciAttrName [("name", "X"), ("Name", "Y")] := by decide

/-- C8 (amended): the staged lookup (exact Name, exact name, then the full
case-insensitive scan) agrees with a single case-insensitive scan in
document order on every element carrying at most one attribute whose key
matches name case-insensitively; with two or more such attributes the two
orders can disagree. -/
theorem C8_staged_eq_scan_single_key (attrib : List (String × String))
    (h : attrib.countP (fun p => lowerStr p.1 == "name") ≤ 1) :
    ownAttrName attrib = ciAttrName attrib := by
  induction attrib with
  | nil => rfl
  | cons p rest ih =>
    by_cases hp : (lowerStr p.1 == "name") = true
    · have hrest : rest.countP (fun q => lowerStr q.1 == "name") = 0 := by
        simp only [List.countP_cons] at h
        rw [if_pos hp] at h
        omega
      have hnone : ∀ q ∈ rest, ¬((lowerStr q.1 == "name") = true) :=
        List.countP_eq_zero.mp hrest
      have hfN : rest.find? (fun q => q.1 == "Name") = none := by
        rw [List.find?_eq_none]
        intro q hq hbeq
        exact hnone q hq (by rw [beq_iff_eq.mp hbeq]; decide)
      have hfn : rest.find? (fun q => q.1 == "name") = none := by
        rw [List.find?_eq_none]
        intro q hq hbeq
        exact hnone q hq (by rw [beq_iff_eq.mp hbeq]; decide)
      have f3 : (p :: rest).find? (fun q => lowerStr q.1 == "name") = some p :=
        List.find?_cons_of_pos rest hp
      have hci : ciAttrName (p :: rest) = some p.2 := by
        simp [ciAttrName, f3]
      rw [hci]
      by_cases hN : p.1 = "Name"
      · have e1 : (p.1 == "Name") = true := beq_iff_eq.mpr hN
        have e2 : (p.1 == "name") = false := by rw [hN]; decide
        have f1 : (p :: rest).find? (fun q => q.1 == "Name") = some p :=
          List.find?_cons_of_pos rest e1
        have f2 : (p :: rest).find? (fun q => q.1 == "name") = none :=
          (List.find?_cons_of_neg rest (by simp [e2])).trans hfn
        by_cases hv : p.2 = ""
        · simp [ownAttrName, truthyGet, ciAttrName, f1, f2, f3, hv]
        · simp [ownAttrName, truthyGet, f1, hv]
      · by_cases hn2 : p.1 = "name"
        · have e1 : (p.1 == "Name") = false := by rw [hn2]; decide
          have e2 : (p.1 == "name") = true := beq_iff_eq.mpr hn2
          have f1 : (p :: rest).find? (fun q => q.1 == "Name") = none :=
            (List.find?_cons_of_neg rest (by simp [e1])).trans hfN
          have f2 : (p :: rest).find? (fun q => q.1 == "name") = some p :=
            List.find?_cons_of_pos rest e2
          by_cases hv : p.2 = ""
          · simp [ownAttrName, truthyGet, ciAttrName, f1, f2, f3, hv]
          · simp [ownAttrName, truthyGet, f1, f2, hv]
        · have e1 : (p.1 == "Name") = false := by
            rw [beq_eq_false_iff_ne]
            exact hN
          have e2 : (p.1 == "name") = false := by
            rw [beq_eq_false_iff_ne]
            exact hn2
          have f1 : (p :: rest).find? (fun q => q.1 == "Name") = none :=
            (List.find?_cons_of_neg rest (by simp [e1])).trans hfN
          have f2 : (p :: rest).find? (fun q => q.1 == "name") = none :=
            (List.find?_cons_of_neg rest (by simp [e2])).trans hfn
          simp [ownAttrName, truthyGet, ciAttrName, f1, f2, f3]
    · have e1 : (p.1 == "Name") = false := by
        rw [beq_eq_false_iff_ne]
        intro hcon
        exact hp (hcon ▸ (by decide : (lowerStr "Name" == "name") = true))
      have e2 : (p.1 == "name") = false := by
        rw [beq_eq_false_iff_ne]
        intro hcon
        exact hp (hcon ▸ (by decide : (lowerStr "name" == "name") = true))
      have f1 : (p :: rest).find? (fun q => q.1 == "Name")
          = rest.find? (fun q => q.1 == "Name") :=
        List.find?_cons_of_neg rest (by simp [e1])
      have f2 : (p :: rest).find? (fun q => q.1 == "name")
          = rest.find? (fun q => q.1 == "name") :=
        List.find?_cons_of_neg rest (by simp [e2])
      have f3 : (p :: rest).find? (fun q => lowerStr q.1 == "name")
          = rest.find? (fun q => lowerStr q.1 == "name") :=
        List.find?_cons_of_neg rest hp
      have hrec : rest.countP (fun q => lowerStr q.1 == "name") ≤ 1 := by
        simp only [List.countP_cons] at h
        rw [if_neg hp] at h
        omega
      calc ownAttrName (p :: rest) = ownAttrName rest := by
            simp only [ownAttrName, truthyGet, ciAttrName, f1, f2, f3]
        _ = ciAttrName rest := ih hrec
        _ = ciAttrName (p :: rest) := by simp only [ciAttrName, f3]

/-- Witness for the amended C8 at a single mixed-case name attribute. -/
theorem C8_witness :
    ownAttrName [("NaMe", "Z"), ("other", "w")]
      = ciAttrName [("NaMe", "Z"), ("other", "w")] :=
  C8_staged_eq_scan_single_key [("NaMe", "Z"), ("other", "w")] (by decide)

theorem mergeFold_counts (ss : List Element) : ∀ (acc : MergeAcc),
    (∀ e ∈ ss, (get_device_name e).isSome) →
    ((ss.map get_device_name).Nodup) →
    (∀ e ∈ ss, ∀ n, get_device_name e = some n → n ∈ acc.names →
        ∃ c ∈ acc.children, get_device_name c = some n) →
    (ss.foldl mergeStep acc).added
        = acc.added + ss.countP (fun e => !(hasNameIn acc.names e))
    ∧ (ss.foldl mergeStep acc).replaced
        = acc.replaced + ss.countP (hasNameIn acc.names)
    ∧ (ss.foldl mergeStep acc).children.length
        = acc.children.length + ss.countP (fun e => !(hasNameIn acc.names e)) := by
  induction ss with
  | nil =>
    intro acc _ _ _
    simp
  | cons e rest ih =>
    intro acc hsome hnodup hcar
    obtain ⟨n, hn⟩ := Option.isSome_iff_exists.mp (hsome e (List.mem_cons_self e rest))
    have hsome2 : ∀ x ∈ rest, (get_device_name x).isSome :=
      fun x hx => hsome x (List.mem_cons_of_mem _ hx)
    have hnd := hnodup
    rw [List.map_cons, List.nodup_cons] at hnd
    have hnodup2 : (rest.map get_device_name).Nodup := hnd.2
    have hne : ∀ x ∈ rest, ∀ m, get_device_name x = some m → m ≠ n := by
      intro x hx m hm hcon
      subst hcon
      exact hnd.1 (List.mem_map.mpr ⟨x, hx, by rw [hm, hn]⟩)
    rw [List.foldl_cons]
    by_cases hb : n ∈ acc.names
    · have hstep : mergeStep acc e = { acc with
          children := removeFirstByName n acc.children ++ [e],
          replaced := acc.replaced + 1 } := by
        simp [mergeStep, hn, hb]
      rw [hstep]
      have hcar2 : ∀ x ∈ rest, ∀ m, get_device_name x = some m →
          m ∈ acc.names →
          ∃ c ∈ removeFirstByName n acc.children ++ [e], get_device_name c = some m := by
        intro x hx m hm hmem
        obtain ⟨c, hc, hcn⟩ := hcar x (List.mem_cons_of_mem _ hx) m hm hmem
        have hmne : m ≠ n := hne x hx m hm
        refine ⟨c, List.mem_append_left _ (mem_removeFirstByName hc ?_), hcn⟩
        intro hcon
        rw [hcn] at hcon
        exact hmne (Option.some.inj hcon)
      obtain ⟨ha, hr, hl⟩ := ih { acc with
          children := removeFirstByName n acc.children ++ [e],
          replaced := acc.replaced + 1 } hsome2 hnodup2 hcar2
      have hhead : hasNameIn acc.names e = true := by simp [hasNameIn, hn, hb]
      have hlen : (removeFirstByName n acc.children ++ [e]).length
          = acc.children.length := by
        have hex : ∃ c ∈ acc.children, get_device_name c = some n :=
          hcar e (List.mem_cons_self e rest) n hn hb
        have h2 := length_removeFirstByName hex
        simp only [List.length_append, List.length_cons, List.length_nil]
        omega
      refine ⟨?_, ?_, ?_⟩
      · rw [ha]
        simp [List.countP_cons, hhead]
      · rw [hr]
        simp [List.countP_cons, hhead]
        omega
      · rw [hl]
        simp only [hlen]
        simp [List.countP_cons, hhead]
    · have hstep : mergeStep acc e = { acc with
          children := acc.children ++ [e],
          names := n :: acc.names,
          added := acc.added + 1 } := by
        simp [mergeStep, hn, hb]
      rw [hstep]
      have hcar2 : ∀ x ∈ rest, ∀ m, get_device_name x = some m →
          m ∈ n :: acc.names →
          ∃ c ∈ acc.children ++ [e], get_device_name c = some m := by
        intro x hx m hm hmem
        have hmne : m ≠ n := hne x hx m hm
        rcases List.mem_cons.mp hmem with rfl | h2
        · exact absurd rfl hmne
        · obtain ⟨c, hc, hcn⟩ := hcar x (List.mem_cons_of_mem _ hx) m hm h2
          exact ⟨c, List.mem_append_left _ hc, hcn⟩
      obtain ⟨ha, hr, hl⟩ := ih { acc with
          children := acc.children ++ [e],
          names := n :: acc.names,
          added := acc.added + 1 } hsome2 hnodup2 hcar2
      have hhead : hasNameIn acc.names e = false := by
        simp [hasNameIn, hn]
        exact hb
      have hagree : ∀ x ∈ rest, hasNameIn (n :: acc.names) x = hasNameIn acc.names x := by
        intro x hx
        cases hgx : get_device_name x with
        | none => simp [hasNameIn, hgx]
        | some m =>
          have hmne : m ≠ n := hne x hx m hgx
          simp [hasNameIn, hgx, List.mem_cons, hmne]
      have hcount1 : rest.countP (hasNameIn (n :: acc.names))
          = rest.countP (hasNameIn acc.names) :=
        List.countP_congr (fun x hx => by rw [hagree x hx])
      have hcount2 : rest.countP (fun x => !(hasNameIn (n :: acc.names) x))
          = rest.countP (fun x => !(hasNameIn acc.names x)) :=
        List.countP_congr (fun x hx => by rw [hagree x hx])
      refine ⟨?_, ?_, ?_⟩
      · rw [ha]
        simp only [hcount2]
        simp [List.countP_cons, hhead]
        omega
      · rw [hr]
        simp only [hcount1]
        simp [List.countP_cons, hhead]
      · rw [hl]
        simp only [hcount2]
        simp [List.countP_cons, hhead]
        omega

theorem mergeFold_carriers (ss : List Element) : ∀ (acc : MergeAcc),
    (∀ n, (∃ c ∈ acc.children, get_device_name c = some n) →
        ∃ c ∈ (ss.foldl mergeStep acc).children, get_device_name c = some n)
    ∧ (∀ e ∈ ss, ∀ n, get_device_name e = some n →
        ∃ c ∈ (ss.foldl mergeStep acc).children, get_device_name c = some n) := by
  induction ss with
  | nil =>
    intro acc
    exact ⟨fun n h => h, fun e he => absurd he (List.not_mem_nil e)⟩
  | cons e rest ih =>
    intro acc
    have hstep : ∀ m, (∃ c ∈ acc.children, get_device_name c = some m) →
        ∃ c ∈ (mergeStep acc e).children, get_device_name c = some m := by
      intro m hm
      obtain ⟨c, hc, hcn⟩ := hm
      cases hge : get_device_name e with
      | none =>
        simp only [mergeStep, hge]
        exact ⟨c, List.mem_append_left _ hc, hcn⟩
      | some n =>
        by_cases hb : n ∈ acc.names
        · simp only [mergeStep, hge, if_pos hb]
          by_cases hmn : m = n
          · subst hmn
            exact ⟨e, List.mem_append_right _ (List.mem_singleton.mpr rfl), hge⟩
          · refine ⟨c, List.mem_append_left _ (mem_removeFirstByName hc ?_), hcn⟩
            intro hcon
            rw [hcn] at hcon
            exact hmn (Option.some.inj hcon)
        · simp only [mergeStep, hge, if_neg hb]
          exact ⟨c, List.mem_append_left _ hc, hcn⟩
    have hin : ∀ n, get_device_name e = some n →
        ∃ c ∈ (mergeStep acc e).children, get_device_name c = some n := by
      intro n hge
      by_cases hb : n ∈ acc.names
      · simp only [mergeStep, hge, if_pos hb]
        exact ⟨e, List.mem_append_right _ (List.mem_singleton.mpr rfl), hge⟩
      · simp only [mergeStep, hge, if_neg hb]
        exact ⟨e, List.mem_append_right _ (List.mem_singleton.mpr rfl), hge⟩
    obtain ⟨P1, P2⟩ := ih (mergeStep acc e)
    rw [List.foldl_cons]
    refine ⟨fun m hm => P1 m (hstep m hm), ?_⟩
    intro x hx n hgx
    rcases List.mem_cons.mp hx with rfl | h2
    · exact P1 n (hin n hgx)
    · exact P2 x h2 n hgx

theorem mergeFold_allUpdate (ss : List Element) : ∀ (acc : MergeAcc),
    (∀ e ∈ ss, ∀ n, get_device_name e = some n → n ∈ acc.names) →
    (∀ e ∈ ss, (get_device_name e).isSome) →
    (∀ e ∈ ss, ∀ n, get_device_name e = some n →
        ∃ c ∈ acc.children, get_device_name c = some n) →
    (ss.foldl mergeStep acc).children.length = acc.children.length
    ∧ (ss.foldl mergeStep acc).added = acc.added
    ∧ (ss.foldl mergeStep acc).replaced = acc.replaced + ss.length := by
  induction ss with
  | nil =>
    intro acc _ _ _
    simp
  | cons e rest ih =>
    intro acc hmem hsome hcar
    obtain ⟨n, hn⟩ := Option.isSome_iff_exists.mp (hsome e (List.mem_cons_self e rest))
    have hb : n ∈ acc.names := hmem e (List.mem_cons_self e rest) n hn
    have hstep : mergeStep acc e = { acc with
        children := removeFirstByName n acc.children ++ [e],
        replaced := acc.replaced + 1 } := by
      simp [mergeStep, hn, hb]
    rw [List.foldl_cons, hstep]
    have hlen : (removeFirstByName n acc.children ++ [e]).length = acc.children.length := by
      have hex := hcar e (List.mem_cons_self e rest) n hn
      have h2 := length_removeFirstByName hex
      simp only [List.length_append, List.length_cons, List.length_nil]
      omega
    have hmem2 : ∀ x ∈ rest, ∀ m, get_device_name x = some m → m ∈ acc.names :=
      fun x hx => hmem x (List.mem_cons_of_mem _ hx)
    have hsome2 : ∀ x ∈ rest, (get_device_name x).isSome :=
      fun x hx => hsome x (List.mem_cons_of_mem _ hx)
    have hcar2 : ∀ x ∈ rest, ∀ m, get_device_name x = some m →
        ∃ c ∈ removeFirstByName n acc.children ++ [e], get_device_name c = some m := by
      intro x hx m hm
      by_cases hmn : m = n
      · subst hmn
        exact ⟨e, List.mem_append_right _ (List.mem_singleton.mpr rfl), hn⟩
      · obtain ⟨c, hc, hcn⟩ := hcar x (List.mem_cons_of_mem _ hx) m hm
        refine ⟨c, List.mem_append_left _ (mem_removeFirstByName hc ?_), hcn⟩
        intro hcon
        rw [hcn] at hcon
        exact hmn (Option.some.inj hcon)
    obtain ⟨h1, h2, h3⟩ := ih { acc with
        children := removeFirstByName n acc.children ++ [e],
        replaced := acc.replaced + 1 } hmem2 hsome2 hcar2
    refine ⟨?_, ?_, ?_⟩
    · rw [h1]
      exact hlen
    · rw [h2]
    · rw [h3]
      show acc.replaced + 1 + rest.length = acc.replaced + (e :: rest).length
      simp [List.length_cons]
      omega

theorem merge_xml_doc_eq (t ts : String) (a as2 : List (String × String))
    (cs ss : List Element) (bak : Option Content) (backup : Bool) :
    (merge_xml ⟨some (.doc (.mk t a (ElementList.ofList cs))), bak⟩
        (some (.doc (.mk ts as2 (ElementList.ofList ss)))) backup).target
      = some (.doc (.mk t a (ElementList.ofList (mergeChildren cs ss).children)))
    ∧ (merge_xml ⟨some (.doc (.mk t a (ElementList.ofList cs))), bak⟩
        (some (.doc (.mk ts as2 (ElementList.ofList ss)))) backup).report
      = some ((mergeChildren cs ss).added, (mergeChildren cs ss).replaced) := by
  constructor <;>
    simp [merge_xml, parseContent, Element.childList, toList_ofList]

theorem mem_resolvedNames_initNames {n : String} {cs : List Element}
    (h : n ∈ resolvedNames cs) : n ∈ initNames cs := by
  obtain ⟨c, hc, hcn⟩ := List.mem_filterMap.mp h
  exact mem_initNames hc hcn

/-- C3 counterexample: two resolvable source children sharing the name X
against an empty target: N = 2, K = 0, so the claim predicts two additions
and a final count of two, but the second occurrence is matched against the
name the first one just added: the code reports added = 1, updated = 1 and
leaves a single child. -/
theorem C3_counterexample :
    (merge_xml ⟨some (Content.doc (.mk "Root" [] .nil)), none⟩
        (some (Content.doc (.mk "Root" [] (ElementList.ofList
          [Element.mk "Device" [("Name", "X"), ("v", "1")] .nil,
           Element.mk "Device" [("Name", "X"), ("v", "2")] .nil])))) false).report
      = some (1, 1)
    ∧ targetChildCount (merge_xml ⟨some (Content.doc (.mk "Root" [] .nil)), none⟩
        (some (Content.doc (.mk "Root" [] (ElementList.ofList
          [Element.mk "Device" [("Name", "X"), ("v", "1")] .nil,
           Element.mk "Device" [("Name", "X"), ("v", "2")] .nil])))) false).target
      = some 1 := by decide

/-- C3 (amended): when the children of the source root all carry resolvable,
pairwise distinct names, and no source name collides with a synthetic
placeholder of the target (each source name is either among the target
resolved names of the target children or absent from the seeded name set), merge_xml
grows the target root by N − K children and reports added = N − K and
updated = K, where K counts source children whose name is already resolved
among the direct children of the target root. -/
theorem C3_merge_counts (t ts : String) (a as2 : List (String × String))
    (cs ss : List Element) (bak : Option Content) (backup : Bool)
    (hsome : ∀ e ∈ ss, (get_device_name e).isSome)
    (hnodup : (ss.map get_device_name).Nodup)
    (hsep : ∀ e ∈ ss, ∀ n, get_device_name e = some n →
        n ∈ resolvedNames cs ∨ n ∉ initNames cs) :
    targetChildCount (merge_xml ⟨some (.doc (.mk t a (ElementList.ofList cs))), bak⟩
        (some (.doc (.mk ts as2 (ElementList.ofList ss)))) backup).target
      = some (cs.length + (ss.length - ss.countP (hasNameIn (resolvedNames cs))))
    ∧ (merge_xml ⟨some (.doc (.mk t a (ElementList.ofList cs))), bak⟩
        (some (.doc (.mk ts as2 (ElementList.ofList ss)))) backup).report
      = some (ss.length - ss.countP (hasNameIn (resolvedNames cs)),
              ss.countP (hasNameIn (resolvedNames cs))) := by
  obtain ⟨htgt, hrep⟩ := merge_xml_doc_eq t ts a as2 cs ss bak backup
  have hacc : mergeChildren cs ss = ss.foldl mergeStep
      { children := cs, names := initNames cs, added := 0, replaced := 0,
        skipped := 0 } := rfl
  have hcar0 : ∀ e ∈ ss, ∀ n, get_device_name e = some n →
      n ∈ ({ children := cs, names := initNames cs, added := 0, replaced := 0,
             skipped := 0 } : MergeAcc).names →
      ∃ c ∈ ({ children := cs, names := initNames cs, added := 0, replaced := 0,
               skipped := 0 } : MergeAcc).children, get_device_name c = some n := by
    intro e he n hn hmem
    rcases hsep e he n hn with hres | hnot
    · exact List.mem_filterMap.mp hres
    · exact absurd hmem hnot
  obtain ⟨ha, hr, hl⟩ := mergeFold_counts ss
      { children := cs, names := initNames cs, added := 0, replaced := 0,
        skipped := 0 } hsome hnodup hcar0
  have hagree : ∀ e ∈ ss, hasNameIn (initNames cs) e = hasNameIn (resolvedNames cs) e := by
    intro e he
    cases hge : get_device_name e with
    | none => simp [hasNameIn, hge]
    | some n =>
      rcases hsep e he n hge with hres | hnot
      · simp [hasNameIn, hge, hres, mem_resolvedNames_initNames hres]
      · have hnres : n ∉ resolvedNames cs :=
          fun hcon => hnot (mem_resolvedNames_initNames hcon)
        simp [hasNameIn, hge, hnot, hnres]
  have hc1 : ss.countP (hasNameIn (initNames cs))
      = ss.countP (hasNameIn (resolvedNames cs)) :=
    List.countP_congr (fun e he => by rw [hagree e he])
  have hc2 : ss.countP (fun e => !(hasNameIn (initNames cs) e))
      = ss.countP (fun e => !(hasNameIn (resolvedNames cs) e)) :=
    List.countP_congr (fun e he => by rw [hagree e he])
  have hsplit := countP_bool_split (hasNameIn (resolvedNames cs)) ss
  have hA : ss.countP (fun e => !(hasNameIn (resolvedNames cs) e))
      = ss.length - ss.countP (hasNameIn (resolvedNames cs)) := by omega
  rw [← hacc] at ha hr hl
  constructor
  · rw [htgt]
    simp only [targetChildCount, Element.childList, toList_ofList]
    rw [hl]
    simp only [hc2, hA]
  · rw [hrep]
    rw [ha, hr]
    simp only [hc2, hc1, hA]
    simp

/-- Witness for the amended C3: one shared name, one new name. -/
theorem C3_witness :
    targetChildCount (merge_xml ⟨some (.doc (.mk "Root" [] (ElementList.ofList
          [Element.mk "Device" [("Name", "A")] .nil]))), none⟩
        (some (.doc (.mk "Root" [] (ElementList.ofList
          [Element.mk "Device" [("Name", "A"), ("v", "2")] .nil,
           Element.mk "Device" [("Name", "B")] .nil])))) true).target = some 2
    ∧ (merge_xml ⟨some (.doc (.mk "Root" [] (ElementList.ofList
          [Element.mk "Device" [("Name", "A")] .nil]))), none⟩
        (some (.doc (.mk "Root" [] (ElementList.ofList
          [Element.mk "Device" [("Name", "A"), ("v", "2")] .nil,
           Element.mk "Device" [("Name", "B")] .nil])))) true).report = some (1, 1) := by
  have h := C3_merge_counts "Root" "Root" [] []
      [Element.mk "Device" [("Name", "A")] .nil]
      [Element.mk "Device" [("Name", "A"), ("v", "2")] .nil,
       Element.mk "Device" [("Name", "B")] .nil] none true
      (by decide) (by decide) (by decide)
  have e1 : List.countP
      (hasNameIn (resolvedNames [Element.mk "Device" [("Name", "A")] .nil]))
      [Element.mk "Device" [("Name", "A"), ("v", "2")] .nil,
       Element.mk "Device" [("Name", "B")] .nil] = 1 := by decide
  rw [e1] at h
  simpa using h

/-- C4 counterexample: a source document with a single anonymous child
(no resolvable name) is appended by the first merge and appended again by a
second merge of the same source: the target root grows from one child to
two, so the second run does not leave the child count unchanged. -/
theorem C4_counterexample :
    targetChildCount (merge_xml ⟨some (Content.doc (.mk "Root" [] .nil)), none⟩
        (some (Content.doc (.mk "Root" [] (.cons (.mk "Foo" [] .nil) .nil)))) true).target
      = some 1
    ∧ targetChildCount (merge_xml
        ⟨(merge_xml ⟨some (Content.doc (.mk "Root" [] .nil)), none⟩
            (some (Content.doc (.mk "Root" [] (.cons (.mk "Foo" [] .nil) .nil)))) true).target,
         (merge_xml ⟨some (Content.doc (.mk "Root" [] .nil)), none⟩
            (some (Content.doc (.mk "Root" [] (.cons (.mk "Foo" [] .nil) .nil)))) true).bak⟩
        (some (Content.doc (.mk "Root" [] (.cons (.mk "Foo" [] .nil) .nil)))) true).target
      = some 2 := by decide

/-- C4 (amended): when every direct child of the source root carries a
resolvable name, a second merge_xml run of the same source against the
result of the first treats every source child as an update: the target
child count of the root is unchanged by the second run, which reports zero
additions and one update per source child. -/
theorem C4_second_run_updates (t ts : String) (a as2 : List (String × String))
    (cs ss : List Element) (bak : Option Content) (backup : Bool)
    (hsome : ∀ e ∈ ss, (get_device_name e).isSome) :
    targetChildCount (merge_xml
        ⟨(merge_xml ⟨some (.doc (.mk t a (ElementList.ofList cs))), bak⟩
            (some (.doc (.mk ts as2 (ElementList.ofList ss)))) backup).target,
         (merge_xml ⟨some (.doc (.mk t a (ElementList.ofList cs))), bak⟩
            (some (.doc (.mk ts as2 (ElementList.ofList ss)))) backup).bak⟩
        (some (.doc (.mk ts as2 (ElementList.ofList ss)))) backup).target
      = targetChildCount (merge_xml ⟨some (.doc (.mk t a (ElementList.ofList cs))), bak⟩
          (some (.doc (.mk ts as2 (ElementList.ofList ss)))) backup).target
    ∧ (merge_xml
        ⟨(merge_xml ⟨some (.doc (.mk t a (ElementList.ofList cs))), bak⟩
            (some (.doc (.mk ts as2 (ElementList.ofList ss)))) backup).target,
         (merge_xml ⟨some (.doc (.mk t a (ElementList.ofList cs))), bak⟩
            (some (.doc (.mk ts as2 (ElementList.ofList ss)))) backup).bak⟩
        (some (.doc (.mk ts as2 (ElementList.ofList ss)))) backup).report
      = some (0, ss.length) := by
  obtain ⟨htgt1, hrep1⟩ := merge_xml_doc_eq t ts a as2 cs ss bak backup
  rw [htgt1]
  obtain ⟨htgt2, hrep2⟩ := merge_xml_doc_eq t ts a as2 (mergeChildren cs ss).children ss
      ((merge_xml ⟨some (.doc (.mk t a (ElementList.ofList cs))), bak⟩
          (some (.doc (.mk ts as2 (ElementList.ofList ss)))) backup).bak) backup
  rw [htgt2, hrep2]
  have hcarry := mergeFold_carriers ss
      { children := cs, names := initNames cs, added := 0, replaced := 0, skipped := 0 }
  have hsrc_car : ∀ e ∈ ss, ∀ n, get_device_name e = some n →
      ∃ c ∈ (mergeChildren cs ss).children, get_device_name c = some n := by
    intro e he n hn
    exact hcarry.2 e he n hn
  have hacc2 : mergeChildren (mergeChildren cs ss).children ss
      = ss.foldl mergeStep
        { children := (mergeChildren cs ss).children,
          names := initNames (mergeChildren cs ss).children,
          added := 0, replaced := 0, skipped := 0 } := rfl
  obtain ⟨h1, h2, h3⟩ := mergeFold_allUpdate ss
      { children := (mergeChildren cs ss).children,
        names := initNames (mergeChildren cs ss).children,
        added := 0, replaced := 0, skipped := 0 }
      (by
        intro e he n hn
        obtain ⟨c, hc, hcn⟩ := hsrc_car e he n hn
        exact mem_initNames hc hcn)
      hsome
      (by
        intro e he n hn
        exact hsrc_car e he n hn)
  rw [← hacc2] at h1 h2 h3
  constructor
  · simp only [targetChildCount, Element.childList, toList_ofList]
    rw [h1]
  · rw [h2, h3]
    simp

/-- Witness for the amended C4: one named source child merged twice. -/
theorem C4_witness :
    targetChildCount (merge_xml
        ⟨(merge_xml ⟨some (.doc (.mk "Root" [] (ElementList.ofList []))), none⟩
            (some (.doc (.mk "Root" [] (ElementList.ofList
              [Element.mk "Device" [("Name", "A")] .nil])))) true).target,
         (merge_xml ⟨some (.doc (.mk "Root" [] (ElementList.ofList []))), none⟩
            (some (.doc (.mk "Root" [] (ElementList.ofList
              [Element.mk "Device" [("Name", "A")] .nil])))) true).bak⟩
        (some (.doc (.mk "Root" [] (ElementList.ofList
          [Element.mk "Device" [("Name", "A")] .nil])))) true).target
      = targetChildCount (merge_xml ⟨some (.doc (.mk "Root" [] (ElementList.ofList []))), none⟩
          (some (.doc (.mk "Root" [] (ElementList.ofList
            [Element.mk "Device" [("Name", "A")] .nil])))) true).target
    ∧ (merge_xml
        ⟨(merge_xml ⟨some (.doc (.mk "Root" [] (ElementList.ofList []))), none⟩
            (some (.doc (.mk "Root" [] (ElementList.ofList
              [Element.mk "Device" [("Name", "A")] .nil])))) true).target,
         (merge_xml ⟨some (.doc (.mk "Root" [] (ElementList.ofList []))), none⟩
            (some (.doc (.mk "Root" [] (ElementList.ofList
              [Element.mk "Device" [("Name", "A")] .nil])))) true).bak⟩
        (some (.doc (.mk "Root" [] (ElementList.ofList
          [Element.mk "Device" [("Name", "A")] .nil])))) true).report
      = some (0, 1) := by
  have h := C4_second_run_updates "Root" "Root" [] [] []
      [Element.mk "Device" [("Name", "A")] .nil] none true (by decide)
  simpa using h
